import Mathlib

/-!
A shallow embedding of the algorithmic core of the airport density and
accessibility dashboard (`final-project.py`): the haversine great-circle
distance, the k-nearest and radius searches over the filtered airport
table, the per-country aggregation, and the country-name resolution of
the dataset loader.  Dataframes are modelled as lists of rows paired
with their pandas index labels; all pure computation is translated
function by function from the source.
-/

namespace AirportApp

open scoped List

/-- An airport row, with the columns selected by `load_airports`
(lines 117-127 of `final-project.py`) plus the derived `country_name`
(line 139) and `is_large` (line 68) columns.  String columns are
modelled as total strings and coordinates as real numbers; rows with
missing coordinates are dropped at load time and never reach the
operations modelled here. -/
structure Airport where
  name : String
  type : String
  continent : String
  iso_country : String
  municipality : String
  latitude_deg : ℝ
  longitude_deg : ℝ
  country_name : String
  is_large : ℕ

instance : Inhabited Airport := ⟨⟨"", "", "", "", "", 0, 0, "", 0⟩⟩

/-- A pandas dataframe of airports: rows paired with their integer index
labels, in frame order.  Every frame in the program descends from
`pd.read_csv` (which assigns the default unique `RangeIndex`) through
row filters, which keep labels unique; theorems that depend on this
carry a `List.Nodup` hypothesis on the label column. -/
abbrev Frame := List (ℕ × Airport)

/-- The index-label column of a frame, in frame order. -/
def labels (df : Frame) : List ℕ := df.map Prod.fst

/-- `math.radians`: degree-to-radian conversion, applied to all four
inputs on line 50. -/
noncomputable def radians (x : ℝ) : ℝ := x * (Real.pi / 180)

/-- The intermediate value `a` of `haversine_km` (line 53), computed on
the radian-converted inputs. -/
noncomputable def haversine_a (lat1 lon1 lat2 lon2 : ℝ) : ℝ :=
  let lat1r := radians lat1
  let lon1r := radians lon1
  let lat2r := radians lat2
  let lon2r := radians lon2
  let dlat := lat2r - lat1r
  let dlon := lon2r - lon1r
  Real.sin (dlat / 2) ^ 2 + Real.cos lat1r * Real.cos lat2r * Real.sin (dlon / 2) ^ 2

/-- `haversine_km` (lines 49-54): great-circle distance in kilometers,
with the earth radius defaulting to `6371.0`.  `math.sqrt` and
`math.asin` are modelled by `Real.sqrt` and `Real.arcsin`, which agree
with them on the domains `[0, ∞)` and `[-1, 1]` reached here. -/
noncomputable def haversine_km (lat1 lon1 lat2 lon2 : ℝ)
    (radius_km : optParam ℝ 6371.0) : ℝ :=
  radius_km * 2 * Real.arcsin (Real.sqrt (haversine_a lat1 lon1 lat2 lon2))

/-- `compute_distances_to_pin` (lines 76-81): one `(index, distance)`
pair per row of the frame, in frame order. -/
noncomputable def compute_distances_to_pin (df : Frame) (pin_lat pin_lon : ℝ) :
    List (ℕ × ℝ) :=
  df.map (fun p => (p.1, haversine_km pin_lat pin_lon p.2.latitude_deg p.2.longitude_deg))

/-- The comparison key of `dist_list.sort(key=lambda x: x[1])` (line 85):
index/distance pairs are compared by their distance component.  Python's
`list.sort` is guaranteed stable and is modelled by the stable
`List.mergeSort`. -/
noncomputable def distLE (x y : ℕ × ℝ) : Bool := decide (x.2 ≤ y.2)

/-- `df.loc[idxs]`: for each requested label, the rows of `df` carrying
that label, in frame order (exactly one row per label when the frame's
labels are unique). -/
def loc (df : Frame) (idxs : List ℕ) : Frame :=
  idxs.flatMap (fun i => df.filter (fun p => p.1 == i))

/-- `find_closest_airports` (lines 83-90): sort the index/distance pairs
by distance, keep the first `k` (default 3), select those rows by label,
and attach the distance column.  The column assignment on line 89
requires both sides to have equal length (pandas raises `ValueError`
otherwise); with unique index labels the lengths agree and the
assignment is the positional pairing modelled by `List.zipWith`. -/
noncomputable def find_closest_airports (df : Frame) (pin_lat pin_lon : ℝ)
    (k : optParam ℕ 3) : List (ℕ × Airport × ℝ) :=
  let dist_list := (compute_distances_to_pin df pin_lat pin_lon).mergeSort distLE
  let closest_idx := (dist_list.take k).map Prod.fst
  let closest_df := loc df closest_idx
  List.zipWith (fun p d => (p.1, p.2, d)) closest_df ((dist_list.take k).map Prod.snd)

/-- Lookup in the dictionary `{idx: d for idx, d in distances}`
(line 280): on duplicate keys the later entry wins, hence the last
matching pair.  The default `0` is never reached when the key is a label
of the frame the distances were computed from. -/
noncomputable def dist_map_get (distances : List (ℕ × ℝ)) (i : ℕ) : ℝ :=
  ((distances.filter (fun q => q.1 == i)).map Prod.snd).getLastD 0

/-- The comparison key of `sort_values("distance_km")` (line 293). -/
noncomputable def annotLE (t u : ℕ × Airport × ℝ) : Bool := decide (t.2.2 ≤ u.2.2)

/-- The radius-filter pipeline of `main` (lines 273-294): annotate every
row of the filtered frame with its distance through the index map
(lines 280-282), keep the rows with distance ≤ radius (line 284), and
sort the displayed table ascending by distance (line 293). -/
noncomputable def radius_filter (df : Frame) (pin_lat pin_lon radius : ℝ) :
    List (ℕ × Airport × ℝ) :=
  let distances := compute_distances_to_pin df pin_lat pin_lon
  let df_with_dist := df.map (fun p => (p.1, p.2, dist_map_get distances p.1))
  let df_radius := df_with_dist.filter (fun t => decide (t.2.2 ≤ radius))
  df_radius.mergeSort annotLE

/-- The string order used for the group keys: pandas `groupby` returns
its groups with keys sorted ascending. -/
def strLE (a b : String) : Bool := decide (a ≤ b)

/-- `df_filtered.groupby("country_name")["name"].count()` (line 206):
one `(country, count)` row per distinct country name, keys ascending,
each count the number of rows of the frame with that country name. -/
def country_counts (df : Frame) : List (String × ℕ) :=
  let names := df.map (fun p => p.2.country_name)
  (names.dedup.mergeSort strLE).map (fun c => (c, names.count c))

/-- The comparison key of `sort_values("airport_count", ascending=False)`
(line 207): descending count. -/
def descLE (x y : String × ℕ) : Bool := decide (y.2 ≤ x.2)

/-- `counts.sort_values("airport_count", ascending=False)` (line 207). -/
def sort_counts (counts : List (String × ℕ)) : List (String × ℕ) :=
  counts.mergeSort descLE

/-- `get_country_min_max` (lines 57-64): `(None, None)` on an empty
table, otherwise the first row (`iloc[0]`, the maximum after the
descending sort) and the last row (`iloc[-1]`, the minimum). -/
def get_country_min_max (counts_df : List (String × ℕ)) :
    Option (String × ℕ) × Option (String × ℕ) :=
  if counts_df.isEmpty then (none, none)
  else (counts_df.head?, counts_df.getLast?)

/-- Python's `str.upper()`, modelled character-wise (identical to
Python's on the ASCII strings that ISO country codes are). -/
def strUpper (s : String) : String := ⟨s.data.map Char.toUpper⟩

/-- The country-name resolution of `load_airports` (line 139):
`df["iso_country"].str.upper().map(lambda c: iso_map.get(c, c))`, where
`iso_map` is the code-to-name dictionary built on line 137 from the ISO
reference table, abstracted here as a partial map.  The raw code is
uppercased before the lookup, and the uppercased code is also the
fallback value of `dict.get`. -/
def resolve_country_name (iso_map : String → Option String) (code : String) : String :=
  (iso_map (strUpper code)).getD (strUpper code)

/-- The haversine contract exactly as §4.1 of the specification words
it: convert the four degree inputs to radians, form
`a = sin²(Δlat/2) + cos(lat1)·cos(lat2)·sin²(Δlon/2)`, and return
`2·R·asin(√a)`.  Written from the specification, to be compared with
`haversine_km`, which is written from the source. -/
noncomputable def haversine_km_spec (lat1 lon1 lat2 lon2 R : ℝ) : ℝ :=
  let p1 := lat1 * Real.pi / 180
  let p2 := lat2 * Real.pi / 180
  let q1 := lon1 * Real.pi / 180
  let q2 := lon2 * Real.pi / 180
  let a := Real.sin ((p2 - p1) / 2) ^ 2 +
    Real.cos p1 * Real.cos p2 * Real.sin ((q2 - q1) / 2) ^ 2
  2 * R * Real.arcsin (Real.sqrt a)

lemma radians_eq (x : ℝ) : radians x = x * Real.pi / 180 := by
  unfold radians; ring

lemma haversine_a_symm (lat1 lon1 lat2 lon2 : ℝ) :
    haversine_a lat1 lon1 lat2 lon2 = haversine_a lat2 lon2 lat1 lon1 := by
  simp only [haversine_a]
  rw [show (radians lat1 - radians lat2) / 2 = -((radians lat2 - radians lat1) / 2) by ring,
    show (radians lon1 - radians lon2) / 2 = -((radians lon2 - radians lon1) / 2) by ring,
    Real.sin_neg, Real.sin_neg]
  ring

lemma haversine_a_self (lat lon : ℝ) : haversine_a lat lon lat lon = 0 := by
  simp [haversine_a]

/-- The radian image of a latitude in `[-90, 90]` lies in `[-π/2, π/2]`. -/
lemma radians_mem_Icc {lat : ℝ} (h1 : -90 ≤ lat) (h2 : lat ≤ 90) :
    radians lat ∈ Set.Icc (-(Real.pi / 2)) (Real.pi / 2) := by
  have hp : (0 : ℝ) ≤ Real.pi / 180 := by positivity
  constructor
  · have := mul_le_mul_of_nonneg_right h1 hp
    calc -(Real.pi / 2) = -90 * (Real.pi / 180) := by ring
    _ ≤ lat * (Real.pi / 180) := this
    _ = radians lat := rfl
  · have := mul_le_mul_of_nonneg_right h2 hp
    calc radians lat = lat * (Real.pi / 180) := rfl
    _ ≤ 90 * (Real.pi / 180) := this
    _ = Real.pi / 2 := by ring

/-- C2: `haversine_km` agrees with the specification's formula at every
input and every radius, and the default radius is 6371.0 km.  Purity is
inherent to the embedding: the function reads nothing but its
arguments. -/
theorem haversine_km_eq_spec (lat1 lon1 lat2 lon2 R : ℝ) :
    haversine_km lat1 lon1 lat2 lon2 R = haversine_km_spec lat1 lon1 lat2 lon2 R ∧
    haversine_km lat1 lon1 lat2 lon2 = haversine_km_spec lat1 lon1 lat2 lon2 6371.0 := by
  constructor <;>
  · simp only [haversine_km, haversine_a, haversine_km_spec, radians_eq]
    ring

/-- C4: the haversine distance is symmetric in its two points, and the
distance from a point to itself is zero, for all valid coordinates. -/
theorem haversine_km_symm_self (lat1 lon1 lat2 lon2 : ℝ)
    (h1 : -90 ≤ lat1) (h2 : lat1 ≤ 90) (h3 : -180 ≤ lon1) (h4 : lon1 ≤ 180)
    (h5 : -90 ≤ lat2) (h6 : lat2 ≤ 90) (h7 : -180 ≤ lon2) (h8 : lon2 ≤ 180) :
    haversine_km lat1 lon1 lat2 lon2 = haversine_km lat2 lon2 lat1 lon1 ∧
    haversine_km lat1 lon1 lat1 lon1 = 0 := by
  constructor
  · simp only [haversine_km, haversine_a_symm lat1 lon1 lat2 lon2]
  · simp [haversine_km, haversine_a_self]

/-- Witness for C4 at New York and London. -/
theorem haversine_km_symm_self_witness :
    haversine_km 40.7128 (-74.0060) 51.5074 (-0.1278) =
      haversine_km 51.5074 (-0.1278) 40.7128 (-74.0060) ∧
    haversine_km 40.7128 (-74.0060) 40.7128 (-74.0060) = 0 :=
  haversine_km_symm_self 40.7128 (-74.0060) 51.5074 (-0.1278)
    (by norm_num) (by norm_num) (by norm_num) (by norm_num)
    (by norm_num) (by norm_num) (by norm_num) (by norm_num)

/-- C9: for latitudes in `[-90, 90]` (longitudes unrestricted) the
intermediate value `a` lies in `[0, 1]`, so `math.sqrt` and `math.asin`
are applied inside their domains (no `ValueError`), and the returned
distance is nonnegative.  Totality is inherent to the embedding. -/
theorem haversine_a_mem_unit (lat1 lon1 lat2 lon2 : ℝ)
    (h1 : -90 ≤ lat1) (h2 : lat1 ≤ 90) (h3 : -90 ≤ lat2) (h4 : lat2 ≤ 90) :
    0 ≤ haversine_a lat1 lon1 lat2 lon2 ∧ haversine_a lat1 lon1 lat2 lon2 ≤ 1 ∧
    0 ≤ haversine_km lat1 lon1 lat2 lon2 := by
  have hc1 : 0 ≤ Real.cos (radians lat1) :=
    Real.cos_nonneg_of_mem_Icc (radians_mem_Icc h1 h2)
  have hc2 : 0 ≤ Real.cos (radians lat2) :=
    Real.cos_nonneg_of_mem_Icc (radians_mem_Icc h3 h4)
  have ha0 : 0 ≤ haversine_a lat1 lon1 lat2 lon2 := by
    simp only [haversine_a]
    exact add_nonneg (sq_nonneg _) (mul_nonneg (mul_nonneg hc1 hc2) (sq_nonneg _))
  have ha1 : haversine_a lat1 lon1 lat2 lon2 ≤ 1 := by
    simp only [haversine_a]
    set x := radians lat1 with hx
    set y := radians lat2 with hy
    have hs1 : Real.sin ((radians lon2 - radians lon1) / 2) ^ 2 ≤ 1 := by
      nlinarith [Real.neg_one_le_sin ((radians lon2 - radians lon1) / 2),
        Real.sin_le_one ((radians lon2 - radians lon1) / 2)]
    have hs0 : 0 ≤ Real.sin ((radians lon2 - radians lon1) / 2) ^ 2 := sq_nonneg _
    have hhalf : Real.sin ((y - x) / 2) ^ 2 = 1 / 2 - Real.cos (y - x) / 2 := by
      rw [Real.sin_sq_eq_half_sub, show 2 * ((y - x) / 2) = y - x by ring]
    have hca : Real.cos x * Real.cos y - Real.sin x * Real.sin y ≤ 1 := by
      have := Real.cos_le_one (x + y)
      rw [Real.cos_add] at this
      linarith
    have hprod : Real.cos x * Real.cos y *
        Real.sin ((radians lon2 - radians lon1) / 2) ^ 2 ≤ Real.cos x * Real.cos y := by
      nlinarith [mul_nonneg hc1 hc2]
    rw [hhalf, Real.cos_sub]
    nlinarith [hprod, hca]
  refine ⟨ha0, ha1, ?_⟩
  have : 0 ≤ Real.arcsin (Real.sqrt (haversine_a lat1 lon1 lat2 lon2)) :=
    Real.arcsin_nonneg.mpr (Real.sqrt_nonneg _)
  simp only [haversine_km]
  have h6371 : (0 : ℝ) ≤ 6371.0 * 2 := by norm_num
  exact mul_nonneg h6371 this

/-- Witness for C9 at Athens and Tokyo. -/
theorem haversine_a_mem_unit_witness :
    0 ≤ haversine_a 37.9838 23.7275 35.6895 139.6917 ∧
    haversine_a 37.9838 23.7275 35.6895 139.6917 ≤ 1 ∧
    0 ≤ haversine_km 37.9838 23.7275 35.6895 139.6917 :=
  haversine_a_mem_unit 37.9838 23.7275 35.6895 139.6917
    (by norm_num) (by norm_num) (by norm_num) (by norm_num)

/-- C7: the k-nearest search on an empty collection returns the empty
result; in the embedding it is total, so no error is raised. -/
theorem find_closest_airports_nil (pin_lat pin_lon : ℝ) (k : ℕ) :
    find_closest_airports ([] : Frame) pin_lat pin_lon k = [] := by
  simp [find_closest_airports, compute_distances_to_pin, loc]

section FrameInfrastructure

variable {β : Type}

/-- In a list of labelled pairs with pairwise-distinct labels, the label
determines the pair. -/
lemma eq_of_mem_of_fst_eq {l : List (ℕ × β)} (hnd : (l.map Prod.fst).Nodup)
    {p q : ℕ × β} (hp : p ∈ l) (hq : q ∈ l) (h : p.1 = q.1) : p = q := by
  induction l with
  | nil => cases hp
  | cons a t ih =>
    rw [List.map_cons, List.nodup_cons] at hnd
    rcases List.mem_cons.mp hp with rfl | hp'
    · rcases List.mem_cons.mp hq with rfl | hq'
      · rfl
      · exact absurd (h ▸ List.mem_map_of_mem Prod.fst hq') hnd.1
    · rcases List.mem_cons.mp hq with rfl | hq'
      · exact absurd (h ▸ List.mem_map_of_mem Prod.fst hp') hnd.1
      · exact ih hnd.2 hp' hq'

/-- Selecting by a label of a list with pairwise-distinct labels keeps
exactly the one matching pair. -/
lemma filter_fst_eq_single {l : List (ℕ × β)} (hnd : (l.map Prod.fst).Nodup)
    {i : ℕ} {b : β} (hp : (i, b) ∈ l) :
    l.filter (fun q => q.1 == i) = [(i, b)] := by
  induction l with
  | nil => cases hp
  | cons a t ih =>
    rw [List.map_cons, List.nodup_cons] at hnd
    rcases List.mem_cons.mp hp with he | hp'
    · have hai : a.1 = i := by rw [← he]
      have hfil : t.filter (fun q => q.1 == i) = [] := by
        apply List.filter_eq_nil_iff.mpr
        intro q hq
        simp only [beq_iff_eq]
        intro hqi
        apply hnd.1
        have hmem : q.1 ∈ List.map Prod.fst t := List.mem_map_of_mem Prod.fst hq
        rw [hai]
        rwa [hqi] at hmem
      rw [List.filter_cons, if_pos (by simp [hai]), hfil, ← he]
    · have hne : ¬((fun q : ℕ × β => q.1 == i) a = true) := by
        simp only [beq_iff_eq]
        intro hai
        apply hnd.1
        rw [hai]
        exact List.mem_map_of_mem Prod.fst hp'
      rw [List.filter_cons, if_neg hne]
      exact ih hnd.2 hp'

end FrameInfrastructure

/-- The unique row of `df` carrying label `i` (meaningful when `i` is a
label of a frame with unique labels); a model-side helper for stating
what `df.loc` selects. -/
def rowOf (df : Frame) (i : ℕ) : Airport :=
  ((df.filter (fun p => p.1 == i)).map Prod.snd).headD default

lemma rowOf_eq {df : Frame} (hnd : (labels df).Nodup) {i : ℕ} {r : Airport}
    (hm : (i, r) ∈ df) : rowOf df i = r := by
  unfold rowOf
  rw [filter_fst_eq_single hnd hm]
  rfl

/-- `df.loc[idxs]`, when all requested labels are labels of a frame with
unique labels, selects for each label its unique row, in request
order. -/
lemma loc_eq_map {df : Frame} (hnd : (labels df).Nodup) {idxs : List ℕ}
    (h : ∀ i ∈ idxs, i ∈ labels df) :
    loc df idxs = idxs.map (fun i => (i, rowOf df i)) := by
  induction idxs with
  | nil => simp [loc]
  | cons i t ih =>
    have hi : i ∈ labels df := h i (List.mem_cons_self i t)
    obtain ⟨p, hp, hpe⟩ := List.mem_map.mp hi
    have hip : (i, p.2) = p := by rw [← hpe]
    have hr : (i, p.2) ∈ df := by rw [hip]; exact hp
    have h1 : df.filter (fun q => q.1 == i) = [(i, p.2)] :=
      filter_fst_eq_single hnd hr
    have h2 := ih (fun j hj => h j (List.mem_cons_of_mem _ hj))
    simp only [loc, List.flatMap_cons] at h2 ⊢
    rw [h1, h2, List.map_cons, rowOf_eq hnd hr]
    rfl

lemma zipWith_map_same {α β γ δ : Type} (f : β → γ → δ) (g : α → β) (h : α → γ) :
    ∀ l : List α, List.zipWith f (l.map g) (l.map h) = l.map (fun x => f (g x) (h x))
  | [] => rfl
  | x :: t => by
    simp only [List.map_cons, List.zipWith_cons_cons, zipWith_map_same f g h t]

/-- The index/distance list computed by `compute_distances_to_pin`
carries the frame's label column. -/
lemma compute_distances_labels (df : Frame) (pin_lat pin_lon : ℝ) :
    (compute_distances_to_pin df pin_lat pin_lon).map Prod.fst = labels df := by
  simp only [compute_distances_to_pin, labels, List.map_map]
  rfl

lemma distLE_trans : ∀ (a b c : ℕ × ℝ), distLE a b → distLE b c → distLE a c := by
  intro a b c hab hbc
  simp only [distLE, decide_eq_true_eq] at hab hbc ⊢
  exact le_trans hab hbc

lemma distLE_total : ∀ (a b : ℕ × ℝ), distLE a b || distLE b a := by
  intro a b
  simp only [distLE, Bool.or_eq_true, decide_eq_true_eq]
  exact le_total a.2 b.2

/-- Master shape lemma: with unique index labels, `find_closest_airports`
is the first `k` entries of the stably sorted index/distance list, each
index paired with its own row and its distance. -/
lemma find_closest_airports_eq {df : Frame} (hnd : (labels df).Nodup)
    (pin_lat pin_lon : ℝ) (k : ℕ) :
    find_closest_airports df pin_lat pin_lon k =
      (((compute_distances_to_pin df pin_lat pin_lon).mergeSort distLE).take k).map
        (fun q => (q.1, rowOf df q.1, q.2)) := by
  simp only [find_closest_airports]
  have hsub : ∀ i ∈ ((((compute_distances_to_pin df pin_lat pin_lon).mergeSort
      distLE).take k).map Prod.fst), i ∈ labels df := by
    intro i hi
    obtain ⟨q, hq, he⟩ := List.mem_map.mp hi
    have hq' : q ∈ (compute_distances_to_pin df pin_lat pin_lon).mergeSort distLE :=
      List.take_subset k _ hq
    rw [List.mem_mergeSort] at hq'
    rw [← he, ← compute_distances_labels df pin_lat pin_lon]
    exact List.mem_map_of_mem Prod.fst hq'
  rw [loc_eq_map hnd hsub, List.map_map, zipWith_map_same]
  rfl

/-- C1: with a uniquely-labelled frame (the invariant of every frame in
the program), the k-nearest result has exactly `min k |collection|`
rows, every returned distance is at most the distance from the point of
interest to every non-returned airport of the same collection, and the
returned rows are ordered ascending by their `distance_km` column. -/
theorem find_closest_airports_spec (df : Frame) (pin_lat pin_lon : ℝ) (k : ℕ)
    (hnd : (labels df).Nodup) :
    (find_closest_airports df pin_lat pin_lon k).length = min k df.length ∧
    (∀ t ∈ find_closest_airports df pin_lat pin_lon k, ∀ p ∈ df,
      p.1 ∉ (find_closest_airports df pin_lat pin_lon k).map Prod.fst →
      t.2.2 ≤ haversine_km pin_lat pin_lon p.2.latitude_deg p.2.longitude_deg) ∧
    List.Pairwise (· ≤ ·)
      ((find_closest_airports df pin_lat pin_lon k).map (fun t => t.2.2)) := by
  rw [find_closest_airports_eq hnd]
  set dl := compute_distances_to_pin df pin_lat pin_lon with hdl
  set sorted := dl.mergeSort distLE with hsorted
  have hpair : sorted.Pairwise (fun a b => distLE a b) :=
    List.sorted_mergeSort distLE_trans distLE_total dl
  refine ⟨?_, ?_, ?_⟩
  · rw [List.length_map, List.length_take, hsorted, List.length_mergeSort, hdl,
      compute_distances_to_pin, List.length_map]
  · intro t ht p hp hnotin
    obtain ⟨q, hq, hqe⟩ := List.mem_map.mp ht
    have hdp : (p.1, haversine_km pin_lat pin_lon p.2.latitude_deg p.2.longitude_deg)
        ∈ dl := by
      rw [hdl]
      simp only [compute_distances_to_pin]
      exact List.mem_map_of_mem _ hp
    have hdp' : (p.1, haversine_km pin_lat pin_lon p.2.latitude_deg p.2.longitude_deg)
        ∈ sorted := by
      rw [hsorted, List.mem_mergeSort]
      exact hdp
    have hnotin' : (p.1, haversine_km pin_lat pin_lon p.2.latitude_deg
        p.2.longitude_deg) ∉ sorted.take k := by
      intro hmem
      apply hnotin
      rw [List.map_map]
      exact List.mem_map_of_mem _ hmem
    have happ : (p.1, haversine_km pin_lat pin_lon p.2.latitude_deg
        p.2.longitude_deg) ∈ sorted.take k ++ sorted.drop k := by
      rw [List.take_append_drop]
      exact hdp'
    have hdrop : (p.1, haversine_km pin_lat pin_lon p.2.latitude_deg
        p.2.longitude_deg) ∈ sorted.drop k := by
      rcases List.mem_append.mp happ with h | h
      · exact absurd h hnotin'
      · exact h
    have hsplit : (sorted.take k ++ sorted.drop k).Pairwise (fun a b => distLE a b) := by
      rw [List.take_append_drop]
      exact hpair
    have hle := (List.pairwise_append.mp hsplit).2.2 q hq _ hdrop
    rw [← hqe]
    simpa [distLE] using hle
  · rw [List.map_map]
    have htk : (sorted.take k).Pairwise (fun a b => distLE a b) :=
      List.Pairwise.sublist (List.take_sublist k sorted) hpair
    apply List.Pairwise.map _ _ htk
    intro a b h
    simpa [distLE] using h

/-- C10: with unique index labels, each returned row's `distance_km`
value is the haversine distance from the point of interest to that same
row's coordinates, and the label/row pair is a row of the input
frame. -/
theorem find_closest_airports_pairing (df : Frame) (pin_lat pin_lon : ℝ) (k : ℕ)
    (hnd : (labels df).Nodup) :
    ∀ t ∈ find_closest_airports df pin_lat pin_lon k,
      t.2.2 = haversine_km pin_lat pin_lon t.2.1.latitude_deg t.2.1.longitude_deg ∧
      (t.1, t.2.1) ∈ df := by
  rw [find_closest_airports_eq hnd]
  intro t ht
  obtain ⟨q, hq, hqe⟩ := List.mem_map.mp ht
  have hq' : q ∈ compute_distances_to_pin df pin_lat pin_lon :=
    List.mem_mergeSort.mp (List.take_subset k _ hq)
  simp only [compute_distances_to_pin] at hq'
  obtain ⟨p, hp, hpe⟩ := List.mem_map.mp hq'
  have hq1 : q.1 = p.1 := by rw [← hpe]
  have hrow : (q.1, p.2) ∈ df := by
    rw [hq1]
    exact (show (p.1, p.2) = p from rfl) ▸ hp
  have hro : rowOf df q.1 = p.2 := rowOf_eq hnd hrow
  subst hqe
  constructor
  · show q.2 = haversine_km pin_lat pin_lon (rowOf df q.1).latitude_deg
      (rowOf df q.1).longitude_deg
    rw [hro, ← hpe]
  · show (q.1, rowOf df q.1) ∈ df
    rw [hro]
    exact hrow

/-- A tiny concrete frame used by the witnesses: two airports with
distinct index labels. -/
def a0 : Airport := ⟨"Alpha", "small_airport", "EU", "GR", "Athens", 38, 24, "Greece", 0⟩

def a1 : Airport := ⟨"Bravo", "large_airport", "EU", "FR", "Paris", 49, 2, "France", 1⟩

def df0 : Frame := [(0, a0), (1, a1)]

lemma df0_nodup : (labels df0).Nodup := by
  simp [labels, df0]

/-- Witness for C1 on the concrete two-row frame. -/
theorem find_closest_airports_spec_witness :
    (labels df0).Nodup ∧
    ((find_closest_airports df0 48 2 3).length = min 3 df0.length ∧
    (∀ t ∈ find_closest_airports df0 48 2 3, ∀ p ∈ df0,
      p.1 ∉ (find_closest_airports df0 48 2 3).map Prod.fst →
      t.2.2 ≤ haversine_km 48 2 p.2.latitude_deg p.2.longitude_deg) ∧
    List.Pairwise (· ≤ ·)
      ((find_closest_airports df0 48 2 3).map (fun t => t.2.2))) :=
  ⟨df0_nodup, find_closest_airports_spec df0 48 2 3 df0_nodup⟩

/-- Witness for C10 on the concrete two-row frame. -/
theorem find_closest_airports_pairing_witness :
    (labels df0).Nodup ∧
    ∀ t ∈ find_closest_airports df0 48 2 2,
      t.2.2 = haversine_km 48 2 t.2.1.latitude_deg t.2.1.longitude_deg ∧
      (t.1, t.2.1) ∈ df0 :=
  ⟨df0_nodup, find_closest_airports_pairing df0 48 2 2 df0_nodup⟩

section StableOrder

variable {α : Type} [DecidableEq α]

/-- Position of the first occurrence of `x` in `l` (length of the
longest prefix without `x`); used to state the stable tie-break. -/
def posIn : List α → α → ℕ
  | [], _ => 0
  | a :: t, x => if a = x then 0 else posIn t x + 1

lemma posIn_getElem? {l : List α} {x : α} (h : x ∈ l) :
    l[posIn l x]? = some x := by
  induction l with
  | nil => cases h
  | cons a t ih =>
    by_cases hax : a = x
    · simp [posIn, hax]
    · rcases List.mem_cons.mp h with he | ht
      · exact absurd he.symm hax
      · simp only [posIn, if_neg hax, List.getElem?_cons_succ]
        exact ih ht

/-- Two members of a list in order of first occurrence form a pair
sublist. -/
lemma pair_sublist_of_posIn_lt {l : List α} {x y : α} (hx : x ∈ l) (hy : y ∈ l)
    (h : posIn l x < posIn l y) : [x, y] <+ l := by
  induction l with
  | nil => cases hx
  | cons a t ih =>
    by_cases hay : a = y
    · rw [show posIn (a :: t) y = 0 by simp [posIn, hay]] at h
      exact absurd h (Nat.not_lt_zero _)
    · have hyt : y ∈ t := by
        rcases List.mem_cons.mp hy with he | ht
        · exact absurd he.symm hay
        · exact ht
      by_cases hax : a = x
      · subst hax
        exact (List.singleton_sublist.mpr hyt).cons₂ a
      · have hxt : x ∈ t := by
          rcases List.mem_cons.mp hx with he | ht
          · exact absurd he.symm hax
          · exact ht
        simp only [posIn, if_neg hax, if_neg hay] at h
        exact (ih hxt hyt (Nat.lt_of_succ_lt_succ h)).cons a

/-- In a list without duplicates, a pair sublist orders the first
occurrences. -/
lemma posIn_lt_of_pair_sublist {l : List α} {x y : α} (hnd : l.Nodup)
    (h : [x, y] <+ l) : posIn l x < posIn l y := by
  induction l with
  | nil => exact absurd (h.subset (by simp)) (List.not_mem_nil x)
  | cons a t ih =>
    rw [List.nodup_cons] at hnd
    cases h with
    | cons _ h' =>
      have hxt : x ∈ t := h'.subset (by simp)
      have hyt : y ∈ t := h'.subset (by simp)
      have hax : ¬a = x := fun e => hnd.1 (e ▸ hxt)
      have hay : ¬a = y := fun e => hnd.1 (e ▸ hyt)
      simp only [posIn, if_neg hax, if_neg hay]
      exact Nat.succ_lt_succ (ih hnd.2 h')
    | cons₂ _ h' =>
      have hyt : y ∈ t := h'.subset (by simp)
      have hay : ¬x = y := fun e => hnd.1 (e ▸ hyt)
      simp only [posIn, if_pos rfl, if_neg hay]
      exact Nat.succ_pos _

end StableOrder

/-- With distinct labels, the first occurrence of a pair in a labelled
list sits at the first occurrence of its label in the label column. -/
lemma posIn_fst {β : Type} [DecidableEq β] {l : List (ℕ × β)}
    (hnd : (l.map Prod.fst).Nodup) {q : ℕ × β} (hq : q ∈ l) :
    posIn (l.map Prod.fst) q.1 = posIn l q := by
  induction l with
  | nil => cases hq
  | cons a t ih =>
    rw [List.map_cons, List.nodup_cons] at hnd
    by_cases haq : a = q
    · rw [List.map_cons]
      simp only [posIn, if_pos (show a.1 = q.1 by rw [haq]), if_pos haq]
    · have hqt : q ∈ t := by
        rcases List.mem_cons.mp hq with he | ht
        · exact absurd he.symm haq
        · exact ht
      have hne : ¬a.1 = q.1 := by
        intro he
        exact hnd.1 (he ▸ List.mem_map_of_mem Prod.fst hqt)
      rw [List.map_cons]
      simp only [posIn, if_neg hne, if_neg haq, ih hnd.2 hqt]

/-- C6: stable tie-break.  With unique index labels, whenever a row `x`
appears before a row `y` in the k-nearest result and the two rows carry
equal distances, `x`'s label occurs strictly earlier in the frame's
label column than `y`'s: ties keep their original collection order, as
Python's stable `list.sort` guarantees. -/
theorem find_closest_airports_stable (df : Frame) (pin_lat pin_lon : ℝ) (k : ℕ)
    (hnd : (labels df).Nodup) :
    ∀ x y, [x, y] <+ find_closest_airports df pin_lat pin_lon k → x.2.2 = y.2.2 →
      posIn (labels df) x.1 < posIn (labels df) y.1 := by
  intro x y hsub heq
  rw [find_closest_airports_eq hnd] at hsub
  set dl := compute_distances_to_pin df pin_lat pin_lon with hdl
  set sorted := dl.mergeSort distLE with hsorted
  have hsub' : [x, y] <+ sorted.map (fun q => (q.1, rowOf df q.1, q.2)) :=
    hsub.trans ((List.take_sublist k sorted).map _)
  obtain ⟨l', hl', hmap⟩ := List.sublist_map_iff.mp hsub'
  match l', hl', hmap with
  | [q1, q2], hl', hmap =>
    have hx : x = (q1.1, rowOf df q1.1, q1.2) := by
      have := congrArg (fun l => l.headD x) hmap
      simpa using this
    have hy : y = (q2.1, rowOf df q2.1, q2.2) := by
      have := congrArg (fun l => l.getLastD y) hmap
      simpa using this
    have hq12 : q1.2 = q2.2 := by
      have h1 : x.2.2 = q1.2 := by rw [hx]
      have h2 : y.2.2 = q2.2 := by rw [hy]
      rw [← h1, ← h2, heq]
    have hndl : (dl.map Prod.fst).Nodup := by
      rw [hdl, compute_distances_labels]
      exact hnd
    have hnddl : dl.Nodup := List.Nodup.of_map Prod.fst hndl
    have hnds : sorted.Nodup := ((List.mergeSort_perm dl distLE).symm).nodup hnddl
    have hq1s : q1 ∈ sorted := hl'.subset (by simp)
    have hq2s : q2 ∈ sorted := hl'.subset (by simp)
    have hq1d : q1 ∈ dl := by rwa [hsorted, List.mem_mergeSort] at hq1s
    have hq2d : q2 ∈ dl := by rwa [hsorted, List.mem_mergeSort] at hq2s
    have hso : posIn sorted q1 < posIn sorted q2 := posIn_lt_of_pair_sublist hnds hl'
    have hgoal : posIn dl q1 < posIn dl q2 := by
      rcases Nat.lt_trichotomy (posIn dl q1) (posIn dl q2) with h | h | h
      · exact h
      · exfalso
        have e1 := posIn_getElem? hq1d
        have e2 := posIn_getElem? hq2d
        rw [h, e2] at e1
        have : q1 = q2 := by injection e1.symm
        rw [this] at hso
        exact lt_irrefl _ hso
      · exfalso
        have hpairle : List.Pairwise (fun a b => distLE a b) [q2, q1] :=
          List.pairwise_pair.mpr (by
            simp only [distLE, decide_eq_true_eq]
            exact le_of_eq hq12.symm)
        have hps : [q2, q1] <+ sorted := by
          rw [hsorted]
          exact List.sublist_mergeSort distLE_trans distLE_total hpairle
            (pair_sublist_of_posIn_lt hq2d hq1d h)
        have := posIn_lt_of_pair_sublist hnds hps
        omega
    have hlab : labels df = dl.map Prod.fst := by
      rw [hdl, compute_distances_labels]
    rw [hx, hy]
    show posIn (labels df) q1.1 < posIn (labels df) q2.1
    rw [hlab, posIn_fst hndl hq1d, posIn_fst hndl hq2d]
    exact hgoal

/-- Witness for C6 on the concrete two-row frame. -/
theorem find_closest_airports_stable_witness :
    (labels df0).Nodup ∧
    ∀ x y, [x, y] <+ find_closest_airports df0 48 2 3 → x.2.2 = y.2.2 →
      posIn (labels df0) x.1 < posIn (labels df0) y.1 :=
  ⟨df0_nodup, find_closest_airports_stable df0 48 2 3 df0_nodup⟩

lemma annotLE_trans :
    ∀ (a b c : ℕ × Airport × ℝ), annotLE a b → annotLE b c → annotLE a c := by
  intro a b c hab hbc
  simp only [annotLE, decide_eq_true_eq] at hab hbc ⊢
  exact le_trans hab hbc

lemma annotLE_total : ∀ (a b : ℕ × Airport × ℝ), annotLE a b || annotLE b a := by
  intro a b
  simp only [annotLE, Bool.or_eq_true, decide_eq_true_eq]
  exact le_total a.2.2 b.2.2

/-- With unique labels, the dictionary lookup of line 280 returns each
row its own distance. -/
lemma dist_map_get_eq {df : Frame} (hnd : (labels df).Nodup) (pin_lat pin_lon : ℝ)
    {p : ℕ × Airport} (hp : p ∈ df) :
    dist_map_get (compute_distances_to_pin df pin_lat pin_lon) p.1 =
      haversine_km pin_lat pin_lon p.2.latitude_deg p.2.longitude_deg := by
  have hndl : ((compute_distances_to_pin df pin_lat pin_lon).map Prod.fst).Nodup := by
    rw [compute_distances_labels]
    exact hnd
  have hm : (p.1, haversine_km pin_lat pin_lon p.2.latitude_deg p.2.longitude_deg)
      ∈ compute_distances_to_pin df pin_lat pin_lon := by
    simp only [compute_distances_to_pin]
    exact List.mem_map_of_mem _ hp
  simp only [dist_map_get]
  rw [filter_fst_eq_single hndl hm]
  rfl

/-- C3: with unique index labels, the radius-filter result is a
permutation of the distance-annotated full collection (the k-nearest
result at `k = |collection|`) restricted to the rows with distance at
most the radius, and it is sorted ascending by distance. -/
theorem radius_filter_spec (df : Frame) (pin_lat pin_lon radius : ℝ)
    (hnd : (labels df).Nodup) :
    List.Perm (radius_filter df pin_lat pin_lon radius)
      ((find_closest_airports df pin_lat pin_lon df.length).filter
        (fun t => decide (t.2.2 ≤ radius))) ∧
    List.Pairwise (· ≤ ·)
      ((radius_filter df pin_lat pin_lon radius).map (fun t => t.2.2)) := by
  constructor
  · set dl := compute_distances_to_pin df pin_lat pin_lon with hdl
    set F : (ℕ × ℝ) → ℕ × Airport × ℝ := fun q => (q.1, rowOf df q.1, q.2) with hF
    set sorted := dl.mergeSort distLE with hsorted
    have hfca : find_closest_airports df pin_lat pin_lon df.length = sorted.map F := by
      rw [find_closest_airports_eq hnd]
      congr 1
      apply List.take_of_length_le
      simp only [List.length_mergeSort, compute_distances_to_pin, List.length_map,
        le_refl]
    have hannot : df.map (fun p => (p.1, p.2, dist_map_get dl p.1)) = dl.map F := by
      rw [hdl]
      simp only [compute_distances_to_pin, List.map_map]
      apply List.map_congr_left
      intro p hp
      have h1 : dist_map_get (compute_distances_to_pin df pin_lat pin_lon) p.1 =
          haversine_km pin_lat pin_lon p.2.latitude_deg p.2.longitude_deg :=
        dist_map_get_eq hnd pin_lat pin_lon hp
      have h2 : rowOf df p.1 = p.2 :=
        rowOf_eq hnd (show (p.1, p.2) ∈ df from (show (p.1, p.2) = p from rfl) ▸ hp)
      show (p.1, p.2, dist_map_get (compute_distances_to_pin df pin_lat pin_lon) p.1)
        = (p.1, rowOf df p.1, haversine_km pin_lat pin_lon p.2.latitude_deg
            p.2.longitude_deg)
      rw [h1, h2]
    have hrf : radius_filter df pin_lat pin_lon radius =
        ((dl.map F).filter (fun t => decide (t.2.2 ≤ radius))).mergeSort annotLE := by
      simp only [radius_filter]
      rw [← hdl, hannot]
    rw [hrf, hfca]
    refine (List.mergeSort_perm _ _).trans ?_
    rw [List.filter_map, List.filter_map]
    exact List.Perm.map F (List.Perm.filter _ (List.mergeSort_perm dl distLE).symm)
  · have hpair : (radius_filter df pin_lat pin_lon radius).Pairwise
        (fun a b => annotLE a b) := by
      simp only [radius_filter]
      exact List.sorted_mergeSort annotLE_trans annotLE_total _
    apply List.Pairwise.map _ _ hpair
    intro a b h
    simpa [annotLE] using h

/-- Witness for C3 on the concrete two-row frame. -/
theorem radius_filter_spec_witness :
    (labels df0).Nodup ∧
    (List.Perm (radius_filter df0 48 2 500)
      ((find_closest_airports df0 48 2 df0.length).filter
        (fun t => decide (t.2.2 ≤ 500))) ∧
    List.Pairwise (· ≤ ·)
      ((radius_filter df0 48 2 500).map (fun t => t.2.2))) :=
  ⟨df0_nodup, radius_filter_spec df0 48 2 500 df0_nodup⟩

section CountSum

variable {α : Type} [DecidableEq α] [BEq α] [LawfulBEq α]

lemma sum_map_add (f g : α → ℕ) :
    ∀ l : List α, (l.map (fun x => f x + g x)).sum = (l.map f).sum + (l.map g).sum
  | [] => rfl
  | a :: t => by
    simp only [List.map_cons, List.sum_cons, sum_map_add f g t]
    omega

lemma sum_map_ite (a : α) :
    ∀ l : List α, (l.map (fun x => if a == x then 1 else 0)).sum = l.count a
  | [] => rfl
  | b :: t => by
    rw [List.map_cons, List.sum_cons, sum_map_ite a t, List.count_cons]
    by_cases hab : b = a
    · subst hab
      simp only [BEq.refl, if_true]
      omega
    · have h1 : (b == a) = false := beq_eq_false_iff_ne.mpr hab
      have h2 : (a == b) = false := beq_eq_false_iff_ne.mpr (Ne.symm hab)
      simp [h1, h2]

lemma count_dedup_eq (a : α) :
    ∀ l : List α, (l.dedup).count a = if a ∈ l then 1 else 0
  | [] => by simp
  | b :: t => by
    by_cases hbt : b ∈ t
    · rw [List.dedup_cons_of_mem hbt, count_dedup_eq a t]
      by_cases hab : a = b
      · subst hab
        simp [hbt]
      · simp [List.mem_cons, hab]
    · rw [List.dedup_cons_of_not_mem hbt, List.count_cons, count_dedup_eq a t]
      by_cases hab : a = b
      · subst hab
        simp [hbt]
      · have h2 : (a == b) = false := beq_eq_false_iff_ne.mpr hab
        have hba : ¬b = a := fun h => hab h.symm
        simp [List.mem_cons, hab, hba, h2]

/-- The group sizes over the distinct values of a list sum to its
length. -/
lemma sum_dedup_count :
    ∀ l : List α, ((l.dedup).map (fun a => l.count a)).sum = l.length
  | [] => by simp
  | a :: t => by
    have hcongr : (t.dedup.map fun x => (a :: t).count x) =
        t.dedup.map (fun x => t.count x + if a == x then 1 else 0) := by
      apply List.map_congr_left
      intro x _
      rw [List.count_cons]
    by_cases hat : a ∈ t
    · rw [List.dedup_cons_of_mem hat, hcongr,
        sum_map_add (fun x => t.count x) (fun x => if a == x then 1 else 0) t.dedup,
        sum_dedup_count t, sum_map_ite a t.dedup, count_dedup_eq a t, if_pos hat,
        List.length_cons]
    · rw [List.dedup_cons_of_not_mem hat, List.map_cons, List.sum_cons, hcongr,
        sum_map_add (fun x => t.count x) (fun x => if a == x then 1 else 0) t.dedup,
        sum_dedup_count t, sum_map_ite a t.dedup, count_dedup_eq a t, if_neg hat,
        List.count_cons, List.count_eq_zero_of_not_mem hat, List.length_cons]
      simp
      omega

end CountSum

lemma descLE_trans :
    ∀ (a b c : String × ℕ), descLE a b → descLE b c → descLE a c := by
  intro a b c hab hbc
  simp only [descLE, decide_eq_true_eq] at hab hbc ⊢
  exact le_trans hbc hab

lemma descLE_total : ∀ (a b : String × ℕ), descLE a b || descLE b a := by
  intro a b
  simp only [descLE, Bool.or_eq_true, decide_eq_true_eq]
  exact le_total b.2 a.2

/-- In a reflexively related sorted list, the head relates to every
member. -/
lemma head_rel_of_pairwise {γ : Type} {R : γ → γ → Prop} {l : List γ}
    (hp : l.Pairwise R) (hne : l ≠ []) (hrefl : ∀ a, R a a) :
    ∀ c ∈ l, R (l.head hne) c := by
  match l, hp, hne with
  | a :: t, hp, _ =>
    intro c hc
    rcases List.mem_cons.mp hc with rfl | hct
    · exact hrefl c
    · exact (List.pairwise_cons.mp hp).1 c hct

lemma country_counts_sum (df : Frame) :
    ((country_counts df).map Prod.snd).sum = df.length := by
  simp only [country_counts, List.map_map]
  set names := df.map (fun p => p.2.country_name) with hn
  have hperm := (List.mergeSort_perm names.dedup strLE).map
    (Prod.snd ∘ fun c => ((c, names.count c) : String × ℕ))
  rw [hperm.sum_eq]
  rw [show (Prod.snd ∘ fun c => ((c, names.count c) : String × ℕ)) =
    fun c => names.count c from rfl]
  rw [sum_dedup_count names, hn, List.length_map]

/-- C5: the per-country counts sum to the size of the filtered
collection; on an empty collection the min/max report is
`(None, None)`; on a nonempty one the reported max/min rows are rows of
the grouped table whose counts are its largest and smallest counts. -/
theorem get_country_min_max_spec (df : Frame) :
    ((country_counts df).map Prod.snd).sum = df.length ∧
    (df.isEmpty → get_country_min_max (sort_counts (country_counts df)) = (none, none)) ∧
    (¬df.isEmpty → ∃ mx mn,
      get_country_min_max (sort_counts (country_counts df)) = (some mx, some mn) ∧
      mx ∈ country_counts df ∧ mn ∈ country_counts df ∧
      ∀ c ∈ country_counts df, mn.2 ≤ c.2 ∧ c.2 ≤ mx.2) := by
  refine ⟨country_counts_sum df, ?_, ?_⟩
  · intro he
    rw [List.isEmpty_iff] at he
    subst he
    simp [country_counts, sort_counts, get_country_min_max]
  · intro hne
    rw [List.isEmpty_iff] at hne
    have hcne : country_counts df ≠ [] := by
      simp only [country_counts]
      intro h
      rw [List.map_eq_nil_iff] at h
      have hlen : ((df.map (fun p => p.2.country_name)).dedup.mergeSort strLE).length
          = 0 := by
        rw [h]
        rfl
      rw [List.length_mergeSort, List.length_eq_zero, List.dedup_eq_nil,
        List.map_eq_nil_iff] at hlen
      exact hne hlen
    have hscne : sort_counts (country_counts df) ≠ [] := by
      simp only [sort_counts]
      intro h
      apply hcne
      have hlen : ((country_counts df).mergeSort descLE).length = 0 := by
        rw [h]
        rfl
      rw [List.length_mergeSort] at hlen
      exact List.length_eq_zero.mp hlen
    set sc := sort_counts (country_counts df) with hsc
    have hrne : sc.reverse ≠ [] := by
      simpa using hscne
    have hps : sc.Pairwise (fun a b : String × ℕ => b.2 ≤ a.2) := by
      apply List.Pairwise.imp _
        (List.sorted_mergeSort descLE_trans descLE_total (country_counts df))
      intro a b h
      simpa [descLE] using h
    have hrev : sc.reverse.Pairwise (fun a b : String × ℕ => a.2 ≤ b.2) :=
      List.pairwise_reverse.mpr hps
    refine ⟨sc.head hscne, sc.reverse.head hrne, ?_, ?_, ?_, ?_⟩
    · have hfalse : sc.isEmpty = false := by
        simp [List.isEmpty_iff, hscne]
      have h1 : sc.head? = some (sc.head hscne) := List.head?_eq_head hscne
      have h2 : sc.getLast? = some (sc.reverse.head hrne) := by
        rw [List.getLast?_eq_head?_reverse]
        exact List.head?_eq_head hrne
      simp [get_country_min_max, hfalse, h1, h2]
    · exact List.mem_mergeSort.mp (List.head_mem hscne)
    · exact List.mem_mergeSort.mp (List.mem_reverse.mp (List.head_mem hrne))
    · intro c hc
      have hcm : c ∈ sc := List.mem_mergeSort.mpr hc
      constructor
      · exact head_rel_of_pairwise hrev hrne (fun a => le_refl a.2) c
          (List.mem_reverse.mpr hcm)
      · exact head_rel_of_pairwise hps hscne (fun a => le_refl a.2) c hcm

/-- Witness for C5 on the concrete two-row frame. -/
theorem get_country_min_max_spec_witness :
    ((country_counts df0).map Prod.snd).sum = df0.length ∧
    (df0.isEmpty → get_country_min_max (sort_counts (country_counts df0)) =
      (none, none)) ∧
    (¬df0.isEmpty → ∃ mx mn,
      get_country_min_max (sort_counts (country_counts df0)) = (some mx, some mn) ∧
      mx ∈ country_counts df0 ∧ mn ∈ country_counts df0 ∧
      ∀ c ∈ country_counts df0, mn.2 ≤ c.2 ∧ c.2 ≤ mx.2) :=
  get_country_min_max_spec df0

/-- Counterexample to C8 as stated: the lowercase code `"gr"` has no
entry in the (empty) code-to-name reference map, yet it does not pass
through unchanged — the loader stores its uppercased form `"GR"`, not
the raw code `"gr"`. -/
theorem resolve_country_name_not_raw :
    resolve_country_name (fun _ => none) "gr" = "GR" ∧
    resolve_country_name (fun _ => none) "gr" ≠ "gr" := by
  constructor <;> decide

/-- C8 amended: a country code whose uppercased form has no entry in
the code-to-name reference map passes through as its uppercased form —
hence unchanged, as the raw code, exactly when the raw code is already
uppercase; no failure and no absent value is produced. -/
theorem resolve_country_name_unmapped (iso_map : String → Option String)
    (code : String) (h : iso_map (strUpper code) = none) :
    resolve_country_name iso_map code = strUpper code ∧
    (strUpper code = code → resolve_country_name iso_map code = code) := by
  have h1 : resolve_country_name iso_map code = strUpper code := by
    simp only [resolve_country_name, h, Option.getD_none]
  exact ⟨h1, fun he => by rw [h1, he]⟩

/-- Witness for the amended C8 at the already-uppercase code `"GR"`. -/
theorem resolve_country_name_unmapped_witness :
    (fun _ : String => (none : Option String)) (strUpper "GR") = none ∧
    (resolve_country_name (fun _ => none) "GR" = strUpper "GR" ∧
    (strUpper "GR" = "GR" → resolve_country_name (fun _ => none) "GR" = "GR")) :=
  ⟨rfl, resolve_country_name_unmapped (fun _ => none) "GR" rfl⟩

end AirportApp
